import Mathlib

/-!
Verification development for the btcedu pipeline core: the overlap-aware
transcript chunker (`btcedu/core/chunker.py`), the pipeline orchestrator and
its state machine (`btcedu/core/pipeline.py`), and the retrieval layer of the
content generator (`btcedu/core/generator.py`).

Modelling conventions:
* Python strings are `List Char`; `text[a:b]` is `(text.drop a).take (b - a)`;
  `str.strip()` is `pyStrip` (drop the default Python whitespace set from both
  ends).
* Python machine integers are `Nat`; subtractions that the chunker performs
  are truncated (`Nat` subtraction), which agrees with the source whenever the
  branch conditions coincide, and the branch conditions are shown to coincide
  on the parameter region of the claims (`chunk_size ≥ 1`,
  `overlap_ratio ∈ [0, 1/2]`).
* The float `overlap_ratio` is modelled as an exact rational; the source's
  `int(chunk_size * overlap_ratio)` and `int(chunk_size * 0.8)` are modelled
  as exact floors (`overlapOf`, `4 * chunk_size / 5`).
* The source's `while` loop is embedded with an explicit fuel argument; fuel
  `text.length + 1` is enough because the scan position strictly increases on
  every iteration on the claims' parameter region (the progress property,
  proved below).
* Database tables are lists of rows; SQLAlchemy sessions are explicit state;
  raising is `Except`; external stage/LLM calls are oracle parameters.
-/

namespace BtcEdu

/-- The whitespace set stripped by Python's `str.strip()` with no argument. -/
def pyIsSpace (c : Char) : Bool :=
  c = ' ' || c = '\t' || c = '\n' || c = '\r' || c = '\x0b' || c = '\x0c'

/-- Python `s.strip()` on a `List Char`: drop whitespace from both ends. -/
def pyStrip (s : List Char) : List Char :=
  ((s.dropWhile pyIsSpace).reverse.dropWhile pyIsSpace).reverse

/-- Python `text[a:b]` for `0 ≤ a ≤ b ≤ len(text)`. -/
def pySlice (text : List Char) (a b : Nat) : List Char :=
  (text.drop a).take (b - a)

/-- `estimate_tokens` from `btcedu/core/chunker.py`: `max(1, len(text) // 4)`. -/
def estimate_tokens (text : List Char) : Nat :=
  max 1 (text.length / 4)

/-- Python `f"{n:03d}"`: decimal digits of `n` left-padded with zeros to width 3. -/
def pad3 (n : Nat) : String :=
  String.mk (List.replicate (3 - (toString n).length) '0') ++ toString n

/-- The `ChunkRecord` dataclass of `btcedu/core/chunker.py`. -/
structure ChunkRecord where
  chunk_id : String
  episode_id : String
  ordinal : Nat
  text : List Char
  token_estimate : Nat
  start_char : Nat
  end_char : Nat
deriving DecidableEq, Repr

/-- The sentence-terminal characters `".!?\n"` of the chunker's break search. -/
def isSentenceEnd (c : Char) : Bool :=
  c = '.' || c = '!' || c = '?' || c = '\n'

/-- The chunker's backward sentence-boundary search:
`for i in range(end, search_start, -1): if i < len(text) and text[i-1] in ".!?\n": return i`.
The last argument is the running loop index, initially `end`. -/
def findBreak (text : List Char) (searchStart : Nat) : Nat → Option Nat
  | 0 => none
  | i + 1 =>
    if i + 1 ≤ searchStart then none
    else if i + 1 < text.length ∧ isSentenceEnd (text.getD i ' ') = true then some (i + 1)
    else findBreak text searchStart i

/-- The chunker's advance rule: `next_pos = end - overlap`, falling back to
`pos + (chunk_size - overlap)` when that would not move past `pos`. -/
def nextPos (chunk_size overlap pos endc : Nat) : Nat :=
  if endc - overlap ≤ pos then pos + (chunk_size - overlap) else endc - overlap

/-- The record appended by the chunker when a window's stripped text is non-empty. -/
def emitChunk (eid : String) (ordinal pos endc : Nat) (seg : List Char) : ChunkRecord :=
  { chunk_id := eid ++ "_" ++ pad3 ordinal, episode_id := eid, ordinal := ordinal,
    text := seg, token_estimate := estimate_tokens seg,
    start_char := pos, end_char := endc }

/-- The chunker's last-chunk extension: the last emitted chunk is rewritten to
reach the end of the text (`end_char = len(text)`, text re-sliced and re-stripped). -/
def extendLast (text : List Char) (last : ChunkRecord) : ChunkRecord :=
  { last with
    text := pyStrip (text.drop last.start_char),
    token_estimate := estimate_tokens (pyStrip (text.drop last.start_char)),
    end_char := text.length }

/-- The chunker's tail merge (`if pos < len(text) and (len(text) - pos) < overlap`):
when the stripped remainder is non-empty and a chunk exists, extend the last chunk;
in every case the loop then stops. -/
def mergeRemainder (text : List Char) (pos : Nat) (chunks : List ChunkRecord) :
    List ChunkRecord :=
  if (pyStrip (text.drop pos)).isEmpty then chunks
  else
    match chunks.getLast? with
    | none => chunks
    | some last => chunks.dropLast ++ [extendLast text last]

/-- The `while pos < len(text)` loop of `chunk_text`, with explicit fuel.
Arguments after the fuel: current position, next ordinal, accumulated chunks. -/
def chunkLoop (text : List Char) (eid : String) (chunk_size overlap : Nat) :
    Nat → Nat → Nat → List ChunkRecord → List ChunkRecord
  | 0, _, _, chunks => chunks
  | fuel + 1, pos, ordinal, chunks =>
    if pos < text.length then
      let end0 := min (pos + chunk_size) text.length
      let endc :=
        if end0 < text.length then (findBreak text (pos + 4 * chunk_size / 5) end0).getD end0
        else end0
      let seg := pyStrip ((text.drop pos).take (endc - pos))
      let chunks2 := if seg.isEmpty then chunks else chunks ++ [emitChunk eid ordinal pos endc seg]
      let ordinal2 := if seg.isEmpty then ordinal else ordinal + 1
      let np := nextPos chunk_size overlap pos endc
      if np < text.length ∧ text.length - np < overlap then mergeRemainder text np chunks2
      else chunkLoop text eid chunk_size overlap fuel np ordinal2 chunks2
    else chunks

/-- `overlap = int(chunk_size * overlap_ratio)`, with the float product modelled
as an exact rational (truncation and floor agree on non-negative values). -/
def overlapOf (chunk_size : Nat) (ratio : ℚ) : Nat :=
  (⌊(chunk_size : ℚ) * ratio⌋).toNat

/-- `chunk_text` from `btcedu/core/chunker.py`. -/
def chunk_text (text : List Char) (episode_id : String) (chunk_size : Nat) (ratio : ℚ) :
    List ChunkRecord :=
  if (pyStrip text).isEmpty then []
  else chunkLoop text episode_id chunk_size (overlapOf chunk_size ratio) (text.length + 1) 0 0 []

/-! ## Pipeline orchestration (`btcedu/core/pipeline.py`)

The persisted `Episode` row is reduced to the fields the orchestrator reads
and writes (`status`, `error_message`, `retry_count`); stage functions are an
oracle `StageImpl` that either returns the stage detail string together with
the episode state it committed, or raises with a message (carrying the state
it left behind).  Durations and log output are omitted (wall-clock time).
-/

/-- `EpisodeStatus` from `btcedu/models/episode.py`. -/
inductive EpisodeStatus where
  | new
  | downloaded
  | transcribed
  | chunked
  | generated
  | completed
  | failed
deriving DecidableEq, Repr

/-- `_STATUS_ORDER` from `btcedu/core/pipeline.py` (every status is in the map,
so the `.get(status, -1)` default is never taken for a real status). -/
def statusOrder : EpisodeStatus → Int
  | .new => 0
  | .downloaded => 1
  | .transcribed => 2
  | .chunked => 3
  | .generated => 4
  | .completed => 5
  | .failed => -1

/-- The `.value` string of each `EpisodeStatus` member. -/
def statusValue : EpisodeStatus → String
  | .new => "new"
  | .downloaded => "downloaded"
  | .transcribed => "transcribed"
  | .chunked => "chunked"
  | .generated => "generated"
  | .completed => "completed"
  | .failed => "failed"

/-- `_STAGES` from `btcedu/core/pipeline.py`: stage names in execution order,
each with the status required to enter the stage. -/
def stages : List (String × EpisodeStatus) :=
  [("download", .new), ("transcribe", .downloaded),
   ("chunk", .transcribed), ("generate", .chunked)]

/-- The episode fields the orchestrator reads and writes. -/
structure EpisodeState where
  status : EpisodeStatus
  error_message : Option String
  retry_count : Nat
deriving DecidableEq, Repr

/-- `StagePlan` from `btcedu/core/pipeline.py`. -/
structure StagePlan where
  stage : String
  decision : String
  reason : String
deriving DecidableEq, Repr

/-- `StageResult` from `btcedu/core/pipeline.py`, without the wall-clock
`duration_seconds` field. -/
structure StageResult where
  stage : String
  status : String
  detail : String := ""
  error : Option String := none
deriving DecidableEq, Repr

/-- `PipelineReport` reduced to the fields the claims are about. -/
structure PipelineReport where
  stages : List StageResult
  success : Bool
  error : Option String
deriving DecidableEq, Repr

/-- The loop body of `resolve_pipeline_plan`, iterating over the stage list and
carrying the `will_advance` flag. -/
def planStages (current : Int) (force : Bool) (statusStr : String) :
    List (String × EpisodeStatus) → Bool → List StagePlan
  | [], _ => []
  | (name, req) :: rest, willAdvance =>
    let r := statusOrder req
    if current > r ∧ ¬force then
      ⟨name, "skip", "already completed"⟩ :: planStages current force statusStr rest willAdvance
    else if current = r ∨ force then
      ⟨name, "run", if force ∧ current > r then "forced" else "status=" ++ statusStr⟩ ::
        planStages current force statusStr rest true
    else if willAdvance then
      ⟨name, "pending", "after prior stages"⟩ :: planStages current force statusStr rest willAdvance
    else
      ⟨name, "skip", "not ready"⟩ :: planStages current force statusStr rest willAdvance

/-- `resolve_pipeline_plan` from `btcedu/core/pipeline.py` (read-only: depends
only on the episode's refreshed status and the force flag). -/
def resolve_pipeline_plan (status : EpisodeStatus) (force : Bool) : List StagePlan :=
  planStages (statusOrder status) force (statusValue status) stages false

/-- A stage function's outcome: success with a detail string and the episode
state it committed, or an exception message (with the state left behind). -/
inductive StageOutcome where
  | ok (detail : String) (st : EpisodeState)
  | fail (msg : String) (st : EpisodeState)

/-- The stage-function oracle: what `_run_stage` does for each stage name. -/
def StageImpl : Type := String → EpisodeState → StageOutcome

/-- The stage loop of `run_episode_pipeline`: skip already-completed and
not-ready stages, run the rest, and on the first failure persist the error,
bump `retry_count` once, and stop.  Returns the accumulated stage results, the
episode state, and the report error (if any). -/
def runStagesLoop (impl : StageImpl) (force : Bool) :
    List (String × EpisodeStatus) → EpisodeState → List StageResult →
    List StageResult × EpisodeState × Option String
  | [], st, acc => (acc, st, none)
  | (name, req) :: rest, st, acc =>
    let c := statusOrder st.status
    let r := statusOrder req
    if c > r then
      runStagesLoop impl force rest st (acc ++ [⟨name, "skipped", "already completed", none⟩])
    else if c < r ∧ ¬force then
      runStagesLoop impl force rest st (acc ++ [⟨name, "skipped", "not ready", none⟩])
    else
      match impl name st with
      | .ok detail st2 =>
        runStagesLoop impl force rest st2 (acc ++ [⟨name, "success", detail, none⟩])
      | .fail msg st2 =>
        let err := "Stage '" ++ name ++ "' failed: " ++ msg
        (acc ++ [⟨name, "failed", "", some msg⟩],
         { st2 with error_message := some err, retry_count := st2.retry_count + 1 },
         some err)

/-- `run_episode_pipeline` from `btcedu/core/pipeline.py`: run the stage loop,
then on a failure-free run mark success and clear any stale error message. -/
def run_episode_pipeline (impl : StageImpl) (force : Bool) (st : EpisodeState) :
    PipelineReport × EpisodeState :=
  match runStagesLoop impl force stages st [] with
  | (results, st2, none) =>
    (⟨results, true, none⟩, { st2 with error_message := none })
  | (results, st2, some e) =>
    (⟨results, false, some e⟩, st2)

/-- `retry_episode` from `btcedu/core/pipeline.py`, for an episode that exists
(the not-found branch raises before reaching this logic): require a failure
signal, clear the error, and re-run the pipeline from the current status. -/
def retry_episode (impl : StageImpl) (st : EpisodeState) :
    Except String (PipelineReport × EpisodeState) :=
  if st.error_message = none ∧ st.status ≠ .failed then
    .error "not in a failed state"
  else
    .ok (run_episode_pipeline impl false { st with error_message := none })

/-! ## Retrieval (`btcedu/core/generator.py`)

The FTS5 engine is an oracle: `search_chunks_fts` restricted to the episode is
modelled by the ranked list of chunk ids it returns.  The `chunks` table is a
list of rows; the `ORDER BY ordinal LIMIT top_k` query is an insertion sort by
ordinal followed by `take`.  The id→row dictionary lookup is `List.find?`
(rows are keyed by their unique primary key `chunk_id`).
-/

/-- A row of the `chunks` table, reduced to the fields `retrieve_chunks` reads. -/
structure ChunkRow where
  chunk_id : String
  episode_id : String
  ordinal : Nat
  text : String
deriving DecidableEq, Repr

/-- A record returned by `retrieve_chunks`. -/
structure RetrievedChunk where
  chunk_id : String
  episode_id : String
  ordinal : Nat
  text : String
  rank : Nat
deriving DecidableEq, Repr

/-- The shared shape of both ranking loops in `retrieve_chunks`: append each
unseen id, stopping as soon as `top_k` ids are collected (`seen` in the source
always equals the set of ids already in the accumulator). -/
def dedupeAppendUpTo (top_k : Nat) : List String → List String → List String
  | acc, [] => acc
  | acc, c :: cs =>
    let acc2 := if c ∈ acc then acc else acc ++ [c]
    if top_k ≤ acc2.length then acc2 else dedupeAppendUpTo top_k acc2 cs

/-- Insertion step for the `ORDER BY Chunk.ordinal` query model. -/
def insertByOrdinal (c : ChunkRow) : List ChunkRow → List ChunkRow
  | [] => [c]
  | d :: ds => if c.ordinal ≤ d.ordinal then c :: d :: ds else d :: insertByOrdinal c ds

/-- The `ORDER BY Chunk.ordinal` query model: insertion sort by ordinal. -/
def sortByOrdinal : List ChunkRow → List ChunkRow
  | [] => []
  | c :: cs => insertByOrdinal c (sortByOrdinal cs)

/-- The final loop of `retrieve_chunks`
(`for rank, cid in enumerate(ranked_ids): if cid in chunk_map: ...`): resolve
each ranked id through the id→row map, attaching the enumeration index as
`rank`; ids with no row are dropped (their rank is still consumed). -/
def buildResults (db : List ChunkRow) : List String → Nat → List RetrievedChunk
  | [], _ => []
  | cid :: rest, rank =>
    match db.find? fun c => c.chunk_id = cid with
    | some c => ⟨c.chunk_id, c.episode_id, c.ordinal, c.text, rank⟩ :: buildResults db rest (rank + 1)
    | none => buildResults db rest (rank + 1)

/-- `retrieve_chunks` from `btcedu/core/generator.py`: dedupe the FTS results
preserving rank order, fall back to ordinal-ordered chunks when fewer than
`top_k // 2` unique ids were found, then resolve ids to rows. -/
def retrieve_chunks (ftsResults : List String) (db : List ChunkRow)
    (episode_id : String) (top_k : Nat) : List RetrievedChunk :=
  let ranked1 := dedupeAppendUpTo top_k [] ftsResults
  let ranked :=
    if ranked1.length < top_k / 2 then
      dedupeAppendUpTo top_k ranked1
        (((sortByOrdinal (db.filter fun c => c.episode_id = episode_id)).take top_k).map
          fun c => c.chunk_id)
    else ranked1
  buildResults db ranked 0

/-! ## Content generation (`btcedu/core/generator.py`, `generate_content`)

The six artifact steps are an oracle from artifact type to either the artifact
text or an exception message; the retrieval result is a parameter.  File
writes, `PipelineRun` rows and `ContentArtifact` rows are out of scope here —
the claim under test concerns only the episode row's `status` and
`error_message` fields.
-/

/-- The artifact-step oracle: what `_generate_artifact` does per artifact type. -/
def ArtifactImpl : Type := String → Except String String

/-- The artifact sequence of `generate_content`: outline, then script / shorts
/ visuals (on the outline), qa (on the script), publishing (on both); the
first exception aborts the sequence. -/
def generateArtifacts (art : ArtifactImpl) : Except String Unit := do
  let _outline ← art "outline"
  let _script ← art "script"
  let _shorts ← art "shorts"
  let _visuals ← art "visuals"
  let _qa ← art "qa"
  let _publishing ← art "publishing"
  pure ()

/-- `generate_content` from `btcedu/core/generator.py`, reduced to its episode
state transition: precondition check (status CHUNKED or GENERATED unless
forced, raised before any state change), then the retrieval + artifact
sequence; an exception is recorded on the episode's `error_message` and
re-raised; on full success the status advances to GENERATED.  Returns the
outcome together with the resulting episode state. -/
def generate_content (art : ArtifactImpl) (retrieved : List RetrievedChunk)
    (force : Bool) (ep : EpisodeState) : Except String Unit × EpisodeState :=
  if ep.status ≠ .chunked ∧ ep.status ≠ .generated ∧ ¬force then
    (.error ("Episode is in status '" ++ statusValue ep.status ++ "', expected 'chunked'."), ep)
  else
    let steps : Except String Unit :=
      if retrieved.isEmpty then .error "No chunks found for episode"
      else generateArtifacts art
    match steps with
    | .ok _ => (.ok (), { ep with status := .generated })
    | .error e => (.error e, { ep with error_message := some e })

/-! ## Chunk persistence (`btcedu/core/chunker.py`, `persist_chunks`)

The `chunks` table and the `chunks_fts` index are lists of rows; the two
`DELETE ... WHERE episode_id = :eid` statements are filters, the inserts are
appends.
-/

/-- A row of the `chunks_fts` FTS5 index: `(chunk_id, episode_id, text)`. -/
structure FtsRow where
  chunk_id : String
  episode_id : String
  text : List Char
deriving DecidableEq, Repr

/-- `persist_chunks` from `btcedu/core/chunker.py`: delete both tables' rows
for the episode, insert the new chunk rows and index entries, and return the
number of chunks persisted. -/
def persist_chunks (store : List ChunkRecord) (fts : List FtsRow)
    (chunks : List ChunkRecord) (episode_id : String) :
    List ChunkRecord × List FtsRow × Nat :=
  ((store.filter fun c => c.episode_id ≠ episode_id) ++ chunks,
   (fts.filter fun r => r.episode_id ≠ episode_id) ++
     chunks.map (fun c => ⟨c.chunk_id, c.episode_id, c.text⟩),
   chunks.length)

/-- Well-formedness of one emitted chunk with respect to the source text and
episode id: the stored text is the stripped slice `text[start:end]` and is
non-empty, the offsets are ordered and in range, the token estimate is
`max(1, len // 4)`, and the id is the episode id with the zero-padded ordinal. -/
def GoodChunk (text : List Char) (eid : String) (c : ChunkRecord) : Prop :=
  c.text = pyStrip (pySlice text c.start_char c.end_char) ∧
  c.text ≠ [] ∧
  c.start_char < c.end_char ∧
  c.end_char ≤ text.length ∧
  c.token_estimate = max 1 (c.text.length / 4) ∧
  c.episode_id = eid ∧
  c.chunk_id = eid ++ "_" ++ pad3 c.ordinal

end BtcEdu

namespace BtcEdu

/-! ## Theorems -/

/-- The overlap is at most half the chunk size when the ratio is in `[0, 1/2]`. -/
theorem two_mul_overlapOf_le (cs : Nat) (ratio : ℚ) (h0 : 0 ≤ ratio) (h2 : ratio ≤ 1 / 2) :
    2 * overlapOf cs ratio ≤ cs := by
  have hx : (cs : ℚ) * ratio ≤ (cs : ℚ) * (1 / 2) := by
    have : (0 : ℚ) ≤ (cs : ℚ) := by positivity
    exact mul_le_mul_of_nonneg_left h2 this
  have hfl : ((⌊(cs : ℚ) * ratio⌋ : ℤ) : ℚ) ≤ (cs : ℚ) * ratio := Int.floor_le _
  have h2x : ((2 * ⌊(cs : ℚ) * ratio⌋ : ℤ) : ℚ) ≤ ((cs : ℤ) : ℚ) := by push_cast; linarith
  have h2z : 2 * ⌊(cs : ℚ) * ratio⌋ ≤ (cs : ℤ) := by exact_mod_cast h2x
  unfold overlapOf
  omega

/-- C9: on every loop iteration of `chunk_text` with `chunk_size ≥ 1` and
`overlap_ratio ∈ [0, 0.5]`, the scan position strictly increases: the advance
`end - overlap` is taken when it moves past `pos`, and otherwise the step
falls back to `pos + (chunk_size - overlap)`, which also moves forward — so
the scan reaches the end of the text and the loop terminates on every input. -/
theorem chunk_scan_progress (cs : Nat) (ratio : ℚ) (pos endc : Nat)
    (hcs : 1 ≤ cs) (h0 : 0 ≤ ratio) (h2 : ratio ≤ 1 / 2) :
    pos < nextPos cs (overlapOf cs ratio) pos endc := by
  have hov := two_mul_overlapOf_le cs ratio h0 h2
  unfold nextPos
  split <;> omega

/-- Witness for C9 at `chunk_size = 10`, `ratio = 1/2`, `pos = 0`, `end = 7`. -/
theorem chunk_scan_progress_witness :
    0 < nextPos 10 (overlapOf 10 (1 / 2)) 0 7 :=
  chunk_scan_progress 10 (1 / 2) 0 7 (by norm_num) (by norm_num) (by norm_num)

/-- C4: `resolve_pipeline_plan` for a NEW episode without force returns exactly
four entries in stage order: download runs (reason `status=new`) and each later
stage is pending with reason `after prior stages` — pending, not skip, because
a prior stage was marked run. -/
theorem resolve_plan_new_not_forced :
    resolve_pipeline_plan .new false =
      [⟨"download", "run", "status=new"⟩,
       ⟨"transcribe", "pending", "after prior stages"⟩,
       ⟨"chunk", "pending", "after prior stages"⟩,
       ⟨"generate", "pending", "after prior stages"⟩] := by
  decide

/-- C8: `persist_chunks` has replace-all semantics: afterwards the chunk rows
for the episode are exactly the new chunks, the FTS index rows for the episode
are exactly the index entries of the new chunks (so any text only present in a
previously persisted set is no longer in the index), rows of other episodes are
untouched in both tables, and the returned count is the number of new chunks. -/
theorem persist_chunks_replace_all (store : List ChunkRecord) (fts : List FtsRow)
    (chunks : List ChunkRecord) (eid : String)
    (hall : ∀ c ∈ chunks, c.episode_id = eid) :
    ((persist_chunks store fts chunks eid).1.filter fun c => c.episode_id = eid) = chunks ∧
    ((persist_chunks store fts chunks eid).1.filter fun c => c.episode_id ≠ eid) =
      (store.filter fun c => c.episode_id ≠ eid) ∧
    ((persist_chunks store fts chunks eid).2.1.filter fun r => r.episode_id = eid) =
      chunks.map (fun c => ⟨c.chunk_id, c.episode_id, c.text⟩) ∧
    ((persist_chunks store fts chunks eid).2.1.filter fun r => r.episode_id ≠ eid) =
      (fts.filter fun r => r.episode_id ≠ eid) ∧
    (persist_chunks store fts chunks eid).2.2 = chunks.length := by
  unfold persist_chunks
  have hs1 : ((store.filter fun c => c.episode_id ≠ eid).filter fun c => c.episode_id = eid) =
      [] := by
    rw [List.filter_eq_nil_iff]
    intro c hc
    simp at hc
    simp [hc.2]
  have hs2 : ((store.filter fun c => c.episode_id ≠ eid).filter fun c => c.episode_id ≠ eid) =
      (store.filter fun c => c.episode_id ≠ eid) := by
    rw [List.filter_eq_self]
    intro c hc
    simp at hc
    simp [hc.2]
  have hc1 : (chunks.filter fun c => c.episode_id = eid) = chunks := by
    rw [List.filter_eq_self]
    intro c hc
    simp [hall c hc]
  have hc2 : (chunks.filter fun c => c.episode_id ≠ eid) = [] := by
    rw [List.filter_eq_nil_iff]
    intro c hc
    simp [hall c hc]
  have hf1 : ((fts.filter fun r => r.episode_id ≠ eid).filter fun r => r.episode_id = eid) =
      [] := by
    rw [List.filter_eq_nil_iff]
    intro r hr
    simp at hr
    simp [hr.2]
  have hf2 : ((fts.filter fun r => r.episode_id ≠ eid).filter fun r => r.episode_id ≠ eid) =
      (fts.filter fun r => r.episode_id ≠ eid) := by
    rw [List.filter_eq_self]
    intro r hr
    simp at hr
    simp [hr.2]
  have hm1 : ((chunks.map fun c => (⟨c.chunk_id, c.episode_id, c.text⟩ : FtsRow)).filter
      fun r => r.episode_id = eid) = chunks.map fun c => ⟨c.chunk_id, c.episode_id, c.text⟩ := by
    rw [List.filter_eq_self]
    intro r hr
    simp at hr
    obtain ⟨c, hc, rfl⟩ := hr
    simp [hall c hc]
  have hm2 : ((chunks.map fun c => (⟨c.chunk_id, c.episode_id, c.text⟩ : FtsRow)).filter
      fun r => r.episode_id ≠ eid) = [] := by
    rw [List.filter_eq_nil_iff]
    intro r hr
    simp at hr
    obtain ⟨c, hc, rfl⟩ := hr
    simp [hall c hc]
  refine ⟨?_, ?_, ?_, ?_, rfl⟩
  · rw [List.filter_append, hs1, hc1, List.nil_append]
  · rw [List.filter_append, hs2, hc2, List.append_nil]
  · rw [List.filter_append, hf1, hm1, List.nil_append]
  · rw [List.filter_append, hf2, hm2, List.append_nil]

/-- Witness for C8: one old chunk and one old index row for the episode are
fully replaced by a one-chunk set; a foreign episode's rows survive. -/
theorem persist_chunks_replace_all_witness :
    ((persist_chunks
        [⟨"ep1_000", "ep1", 0, "old".toList, 1, 0, 3⟩, ⟨"ep2_000", "ep2", 0, "keep".toList, 1, 0, 4⟩]
        [⟨"ep1_000", "ep1", "old".toList⟩, ⟨"ep2_000", "ep2", "keep".toList⟩]
        [⟨"ep1_000", "ep1", 0, "new".toList, 1, 0, 3⟩] "ep1").1.filter
        fun c => c.episode_id = "ep1") = [⟨"ep1_000", "ep1", 0, "new".toList, 1, 0, 3⟩] :=
  (persist_chunks_replace_all _ _ _ _ (by intro c hc; simp at hc; rw [hc])).1

/-- Accumulator normalization for the orchestrator's stage loop: the entries
already accumulated are a prefix of the final result and do not influence the
rest of the run. -/
theorem runStagesLoop_append (impl : StageImpl) (force : Bool) :
    ∀ (ss : List (String × EpisodeStatus)) (st : EpisodeState) (acc : List StageResult),
    runStagesLoop impl force ss st acc =
      (acc ++ (runStagesLoop impl force ss st []).1,
       (runStagesLoop impl force ss st []).2) := by
  intro ss
  induction ss with
  | nil =>
    intro st acc
    simp [runStagesLoop]
  | cons p rest ih =>
    intro st acc
    obtain ⟨name, req⟩ := p
    simp only [runStagesLoop]
    split
    · rw [ih st (acc ++ _), ih st ([] ++ _)]
      simp
    · split
      · rw [ih st (acc ++ _), ih st ([] ++ _)]
        simp
      · cases himpl : impl name st with
        | ok d st2 =>
          dsimp only
          rw [ih st2 (acc ++ _), ih st2 ([] ++ _)]
          simp
        | fail m st2 =>
          dsimp only
          simp

/-- Stage-loop step: a stage the episode has already passed is recorded as a
skip (`already completed`) and the loop continues with the same state. -/
theorem runStagesLoop_cons_already (impl : StageImpl) (force : Bool)
    (name : String) (req : EpisodeStatus) (rest : List (String × EpisodeStatus))
    (st : EpisodeState) (h : statusOrder st.status > statusOrder req) :
    runStagesLoop impl force ((name, req) :: rest) st [] =
      (⟨name, "skipped", "already completed", none⟩ :: (runStagesLoop impl force rest st []).1,
       (runStagesLoop impl force rest st []).2) := by
  simp only [runStagesLoop]
  rw [if_pos h, runStagesLoop_append impl force rest st]
  simp

/-- Stage-loop step: a stage the episode has not reached yet is recorded as a
skip (`not ready`) in a non-forced run, and the loop continues with the same
state. -/
theorem runStagesLoop_cons_notReady (impl : StageImpl)
    (name : String) (req : EpisodeStatus) (rest : List (String × EpisodeStatus))
    (st : EpisodeState) (h1 : ¬statusOrder st.status > statusOrder req)
    (h2 : statusOrder st.status < statusOrder req) :
    runStagesLoop impl false ((name, req) :: rest) st [] =
      (⟨name, "skipped", "not ready", none⟩ :: (runStagesLoop impl false rest st []).1,
       (runStagesLoop impl false rest st []).2) := by
  simp only [runStagesLoop]
  rw [if_neg h1, if_pos (by exact ⟨h2, by simp⟩), runStagesLoop_append impl false rest st]
  simp

/-- Stage-loop step: a runnable stage whose implementation succeeds is recorded
as a success and the loop continues with the state the stage committed. -/
theorem runStagesLoop_cons_ok (impl : StageImpl) (force : Bool)
    (name : String) (req : EpisodeStatus) (rest : List (String × EpisodeStatus))
    (st st2 : EpisodeState) (d : String)
    (h1 : ¬statusOrder st.status > statusOrder req)
    (h2 : ¬(statusOrder st.status < statusOrder req ∧ ¬force = true))
    (himpl : impl name st = .ok d st2) :
    runStagesLoop impl force ((name, req) :: rest) st [] =
      (⟨name, "success", d, none⟩ :: (runStagesLoop impl force rest st2 []).1,
       (runStagesLoop impl force rest st2 []).2) := by
  simp only [runStagesLoop]
  rw [if_neg h1, if_neg h2, himpl]
  dsimp only
  rw [runStagesLoop_append impl force rest st2]
  simp

/-- Stage-loop step: a runnable stage whose implementation raises ends the loop
at once, with the error persisted and the retry count bumped. -/
theorem runStagesLoop_cons_fail (impl : StageImpl) (force : Bool)
    (name : String) (req : EpisodeStatus) (rest : List (String × EpisodeStatus))
    (st st2 : EpisodeState) (m : String)
    (h1 : ¬statusOrder st.status > statusOrder req)
    (h2 : ¬(statusOrder st.status < statusOrder req ∧ ¬force = true))
    (himpl : impl name st = .fail m st2) :
    runStagesLoop impl force ((name, req) :: rest) st [] =
      ([⟨name, "failed", "", some m⟩],
       { st2 with error_message := some ("Stage '" ++ name ++ "' failed: " ++ m),
                  retry_count := st2.retry_count + 1 },
       some ("Stage '" ++ name ++ "' failed: " ++ m)) := by
  simp only [runStagesLoop]
  rw [if_neg h1, if_neg h2, himpl]
  dsimp only
  simp

/-- In a non-forced run, every report entry whose stage requires a status
strictly below the episode's status at loop entry is a skip: the stages ahead
of the episode's position are never executed.  Needs the stage list's required
orders to be strictly increasing. -/
theorem runStagesLoop_skip_of_lt (impl : StageImpl) :
    ∀ (ss : List (String × EpisodeStatus)) (st : EpisodeState),
    List.Pairwise (fun a b => statusOrder a.2 < statusOrder b.2) ss →
    ∀ i p r, ss.get? i = some p →
      (runStagesLoop impl false ss st []).1.get? i = some r →
      statusOrder p.2 < statusOrder st.status →
      r.status = "skipped" := by
  intro ss
  induction ss with
  | nil =>
    intro st _ i p r hp _ _
    simp at hp
  | cons q rest ih =>
    intro st hpair i p r hp hr hlt
    obtain ⟨name, req⟩ := q
    rw [List.pairwise_cons] at hpair
    obtain ⟨hhead, htail⟩ := hpair
    by_cases h1 : statusOrder st.status > statusOrder req
    · rw [runStagesLoop_cons_already impl false name req rest st h1] at hr
      cases i with
      | zero =>
        simp at hr
        rw [← hr]
      | succ i =>
        simp only [List.get?_cons_succ] at hr hp
        exact ih st htail i p r hp hr hlt
    · by_cases h2 : statusOrder st.status < statusOrder req
      · rw [runStagesLoop_cons_notReady impl name req rest st h1 h2] at hr
        cases i with
        | zero =>
          simp at hr
          rw [← hr]
        | succ i =>
          simp only [List.get?_cons_succ] at hr hp
          exact ih st htail i p r hp hr hlt
      · have h2n : ¬(statusOrder st.status < statusOrder req ∧ ¬false = true) := by
          intro hx
          exact h2 hx.1
        cases himpl : impl name st with
        | ok d st2 =>
          rw [runStagesLoop_cons_ok impl false name req rest st st2 d h1 h2n himpl] at hr
          cases i with
          | zero =>
            simp only [List.get?_cons_zero, Option.some.injEq] at hp
            have hlt2 : statusOrder req < statusOrder st.status := by rw [← hp] at hlt; exact hlt
            omega
          | succ i =>
            simp only [List.get?_cons_succ] at hp
            have hmem : p ∈ rest := List.get?_mem hp
            have h3 : statusOrder req < statusOrder p.2 := hhead p hmem
            omega
        | fail m st2 =>
          rw [runStagesLoop_cons_fail impl false name req rest st st2 m h1 h2n himpl] at hr
          cases i with
          | zero =>
            simp only [List.get?_cons_zero, Option.some.injEq] at hp
            have hlt2 : statusOrder req < statusOrder st.status := by rw [← hp] at hlt; exact hlt
            omega
          | succ i =>
            simp at hr

/-- C7: `retry_episode` on an existing episode raises when there is no failure
signal (`error_message` unset and status not FAILED); otherwise it clears the
error message, leaves the status unchanged, and runs the orchestrator from
that status, so the resulting report shows real (non-skipped) execution only
for stages whose required status is at or after the episode's pre-retry
status. -/
theorem retry_episode_spec (impl : StageImpl) (st : EpisodeState) :
    (st.error_message = none → st.status ≠ .failed →
      retry_episode impl st = .error "not in a failed state") ∧
    ((st.error_message ≠ none ∨ st.status = .failed) →
      retry_episode impl st =
        .ok (run_episode_pipeline impl false { st with error_message := none }) ∧
      ∀ i p r, stages.get? i = some p →
        (run_episode_pipeline impl false { st with error_message := none }).1.stages.get? i =
          some r →
        statusOrder p.2 < statusOrder st.status → r.status = "skipped") := by
  constructor
  · intro h1 h2
    unfold retry_episode
    rw [if_pos ⟨h1, h2⟩]
  · intro h
    have hcond : ¬(st.error_message = none ∧ st.status ≠ .failed) := by tauto
    refine ⟨by unfold retry_episode; rw [if_neg hcond], ?_⟩
    intro i p r hp hr hlt
    have hrep : (run_episode_pipeline impl false { st with error_message := none }).1.stages =
        (runStagesLoop impl false stages { st with error_message := none } []).1 := by
      unfold run_episode_pipeline
      rcases hres : runStagesLoop impl false stages { st with error_message := none } [] with
        ⟨a, b, c⟩
      cases c <;> rfl
    rw [hrep] at hr
    exact runStagesLoop_skip_of_lt impl stages _ (by decide) i p r hp hr hlt

/-- Witness for C7: an all-successful oracle on a CHUNKED episode carrying an
error message — retry clears the error and re-runs from CHUNKED. -/
theorem retry_episode_spec_witness :
    retry_episode (fun _ st => .ok "" st) ⟨.chunked, some "err", 1⟩ =
      .ok (run_episode_pipeline (fun _ st => .ok "" st) false ⟨.chunked, none, 1⟩) :=
  ((retry_episode_spec (fun _ st => .ok "" st) ⟨.chunked, some "err", 1⟩).2
    (Or.inl (by simp))).1

/-- Counterexample to C6: a successful `generate_content` run on an episode
that carries a stale `error_message` (as left behind by an earlier failed
generate attempt) advances the status to GENERATED but does **not** clear the
error — `error_message` stays `some "old failure"` rather than becoming null.
The clearing only happens later in `run_episode_pipeline`. -/
theorem generate_content_counterexample :
    (generate_content (fun _ => .ok "text") [⟨"ep1_000", "ep1", 0, "t", 0⟩] false
        ⟨.chunked, some "old failure", 1⟩).1 = .ok () ∧
    (generate_content (fun _ => .ok "text") [⟨"ep1_000", "ep1", 0, "t", 0⟩] false
        ⟨.chunked, some "old failure", 1⟩).2 =
      ⟨.generated, some "old failure", 1⟩ :=
  ⟨rfl, rfl⟩

/-- C6 (amended): when `generate_content` completes all six artifact steps
without an exception, it advances the episode's status to GENERATED in the
same commit; the episode's `error_message` is left unchanged — it is not
cleared here (a stale error is cleared by the orchestrator after a fully
successful pipeline run, not by `generate_content`). -/
theorem generate_content_success_state (art : ArtifactImpl)
    (retrieved : List RetrievedChunk) (force : Bool) (ep : EpisodeState)
    (h : (generate_content art retrieved force ep).1 = .ok ()) :
    (generate_content art retrieved force ep).2.status = .generated ∧
    (generate_content art retrieved force ep).2.error_message = ep.error_message := by
  revert h
  unfold generate_content
  split
  · intro h
    simp at h
  · intro h
    cases hst : (if retrieved.isEmpty then (Except.error "No chunks found for episode" : Except String Unit) else generateArtifacts art) with
    | ok u =>
      exact ⟨rfl, rfl⟩
    | error e =>
      rw [hst] at h
      simp at h

/-- Witness for C6 (amended): a concrete all-successful run from CHUNKED with a
stale error message. -/
theorem generate_content_success_state_witness :
    (generate_content (fun _ => .ok "out") [⟨"ep1_000", "ep1", 0, "t", 0⟩] false
        ⟨.chunked, some "stale", 2⟩).2.status = .generated ∧
    (generate_content (fun _ => .ok "out") [⟨"ep1_000", "ep1", 0, "t", 0⟩] false
        ⟨.chunked, some "stale", 2⟩).2.error_message = some "stale" :=
  generate_content_success_state _ _ _ _ rfl

/-- Counterexample to C5: with `top_k = 1`, a lexical query matching nothing
yields zero unique results, which is *fewer than* `top_k / 2` in the claim's
real-valued reading (`0 < 0.5`), and one chunk (`≥ top_k`) exists for the
episode — yet `retrieve_chunks` returns no records: the source compares
against the integer floor `top_k // 2 = 0`, so the ordinal fallback never
fires and the result is empty instead of `top_k = 1` records. -/
theorem retrieve_chunks_counterexample :
    1 ≤ ([⟨"ep1_000", "ep1", 0, "t"⟩] : List ChunkRow).length ∧
    retrieve_chunks [] [⟨"ep1_000", "ep1", 0, "t"⟩] "ep1" 1 = [] :=
  ⟨by decide, rfl⟩

/-- `pyStrip` gives the empty list exactly when every character is whitespace. -/
theorem pyStrip_eq_nil_iff (l : List Char) :
    pyStrip l = [] ↔ ∀ x ∈ l, pyIsSpace x = true := by
  unfold pyStrip
  constructor
  · intro h x hx
    rw [List.reverse_eq_nil_iff, List.dropWhile_eq_nil_iff] at h
    have hall : ∀ y ∈ l.dropWhile pyIsSpace, pyIsSpace y = true := by
      intro y hy
      exact h y (List.mem_reverse.mpr hy)
    have hx2 : x ∈ l.takeWhile pyIsSpace ++ l.dropWhile pyIsSpace := by
      rw [List.takeWhile_append_dropWhile]
      exact hx
    rcases List.mem_append.mp hx2 with h1 | h2
    · exact List.mem_takeWhile_imp h1
    · exact hall x h2
  · intro h
    rw [List.dropWhile_eq_nil_iff.mpr h]
    rfl

/-- A list containing a non-whitespace character strips to a non-empty list. -/
theorem pyStrip_ne_nil (l : List Char) (x : Char) (hx : x ∈ l) (hw : pyIsSpace x = false) :
    pyStrip l ≠ [] := by
  intro h
  have := (pyStrip_eq_nil_iff l).mp h x hx
  rw [hw] at this
  exact Bool.false_ne_true this

/-- A non-empty list equal to its own strip does not begin with whitespace. -/
theorem pyStrip_self_head (l : List Char) (h : pyStrip l = l) (hne : l ≠ []) :
    ∃ c, l.head? = some c ∧ pyIsSpace c = false := by
  have hne2 : pyStrip l ≠ [] := by rw [h]; exact hne
  have hd1ne : l.dropWhile pyIsSpace ≠ [] := by
    intro hnil
    apply hne2
    unfold pyStrip
    rw [hnil]
    rfl
  have hpre : pyStrip l <+: l.dropWhile pyIsSpace := by
    have hsuf : (l.dropWhile pyIsSpace).reverse.dropWhile pyIsSpace <:+
        (l.dropWhile pyIsSpace).reverse := List.dropWhile_suffix _
    have hp := List.reverse_prefix.mpr hsuf
    rw [List.reverse_reverse] at hp
    exact hp
  obtain ⟨t, ht⟩ := hpre
  have hhead1 : (l.dropWhile pyIsSpace).head? = (pyStrip l).head? := by
    rcases hs : pyStrip l with _ | ⟨c, r⟩
    · exact absurd hs hne2
    · rw [← ht, hs]
      rfl
  have hheadd1 := List.head_dropWhile_not pyIsSpace l hd1ne
  refine ⟨(l.dropWhile pyIsSpace).head hd1ne, ?_, hheadd1⟩
  conv_lhs => rw [← h]
  rw [← hhead1]
  exact List.head?_eq_head hd1ne

/-- A non-empty list equal to its own strip does not end with whitespace. -/
theorem pyStrip_self_last (l : List Char) (h : pyStrip l = l) (hne : l ≠ []) :
    ∃ c, l.getLast? = some c ∧ pyIsSpace c = false := by
  have hne2 : pyStrip l ≠ [] := by rw [h]; exact hne
  have hd2ne : (l.dropWhile pyIsSpace).reverse.dropWhile pyIsSpace ≠ [] := by
    intro hnil
    apply hne2
    unfold pyStrip
    rw [hnil]
    rfl
  have hheadd2 := List.head_dropWhile_not pyIsSpace (l.dropWhile pyIsSpace).reverse hd2ne
  refine ⟨((l.dropWhile pyIsSpace).reverse.dropWhile pyIsSpace).head hd2ne, ?_, hheadd2⟩
  conv_lhs => rw [← h]
  show (pyStrip l).getLast? = _
  unfold pyStrip
  rw [List.getLast?_reverse]
  exact List.head?_eq_head hd2ne

/-- The sentence-boundary search result never exceeds the loop's start index. -/
theorem findBreak_le (text : List Char) (ss : Nat) :
    ∀ i b, findBreak text ss i = some b → b ≤ i := by
  intro i
  induction i with
  | zero =>
    intro b h
    simp [findBreak] at h
  | succ i ih =>
    intro b h
    simp only [findBreak] at h
    split at h
    · exact absurd h (by simp)
    · split at h
      · have : i + 1 = b := by simpa using h
        omega
      · have := ih b h
        omega

/-- The sentence-boundary search result lies strictly past `search_start`. -/
theorem findBreak_gt (text : List Char) (ss : Nat) :
    ∀ i b, findBreak text ss i = some b → ss < b := by
  intro i
  induction i with
  | zero =>
    intro b h
    simp [findBreak] at h
  | succ i ih =>
    intro b h
    simp only [findBreak] at h
    split at h
    · exact absurd h (by simp)
    · split at h
      · have hb : i + 1 = b := by simpa using h
        rename_i hss _
        omega
      · exact ih b h

/-- The sentence-boundary search only returns in-text break positions. -/
theorem findBreak_lt_len (text : List Char) (ss : Nat) :
    ∀ i b, findBreak text ss i = some b → b < text.length := by
  intro i
  induction i with
  | zero =>
    intro b h
    simp [findBreak] at h
  | succ i ih =>
    intro b h
    simp only [findBreak] at h
    split at h
    · exact absurd h (by simp)
    · split at h
      · have hb : i + 1 = b := by simpa using h
        rename_i hcond
        omega
      · exact ih b h

/-- Once the scan position has reached the end of the text the loop returns the
accumulated chunks. -/
theorem chunkLoop_exit (text : List Char) (eid : String) (cs ov : Nat) :
    ∀ fuel pos ordinal chunks, text.length ≤ pos →
    chunkLoop text eid cs ov fuel pos ordinal chunks = chunks := by
  intro fuel
  cases fuel with
  | zero =>
    intro pos ordinal chunks _
    rfl
  | succ f =>
    intro pos ordinal chunks h
    simp only [chunkLoop]
    rw [if_neg (by omega)]

/-- A chunk emitted from a window with non-empty stripped text is well-formed. -/
theorem emitChunk_good (text : List Char) (eid : String) (ordinal pos endc : Nat)
    (hle : endc ≤ text.length)
    (hseg : pyStrip ((text.drop pos).take (endc - pos)) ≠ []) :
    GoodChunk text eid
      (emitChunk eid ordinal pos endc (pyStrip ((text.drop pos).take (endc - pos)))) := by
  have hlt : pos < endc := by
    by_contra hc
    push_neg at hc
    have hz : endc - pos = 0 := by omega
    rw [hz, List.take_zero] at hseg
    exact hseg rfl
  exact ⟨rfl, hseg, hlt, hle, rfl, rfl, rfl⟩

/-- The tail merge preserves chunk well-formedness and the ordinal sequence
(the extended last chunk keeps its id, ordinal and start offset; its end
becomes the text length). -/
theorem mergeRemainder_good (text : List Char) (eid : String) (pos : Nat)
    (chunks : List ChunkRecord)
    (h1 : ∀ c ∈ chunks, GoodChunk text eid c) :
    (∀ c ∈ mergeRemainder text pos chunks, GoodChunk text eid c) ∧
    ((mergeRemainder text pos chunks).map fun c => c.ordinal) =
      (chunks.map fun c => c.ordinal) := by
  unfold mergeRemainder
  split
  · exact ⟨h1, rfl⟩
  · cases hlast : chunks.getLast? with
    | none => exact ⟨h1, rfl⟩
    | some last =>
      obtain ⟨ys, hys⟩ := List.getLast?_eq_some_iff.mp hlast
      subst hys
      rw [List.dropLast_concat]
      have hlast_mem : last ∈ ys ++ [last] := by simp
      obtain ⟨ht, hne, hlt, hle, _htok, hep, hid⟩ := h1 last hlast_mem
      have htake : (text.drop last.start_char).take (text.length - last.start_char) =
          text.drop last.start_char := by
        rw [← List.length_drop]
        exact List.take_length _
      have hgood_ext : GoodChunk text eid (extendLast text last) := by
        refine ⟨?_, ?_, lt_of_lt_of_le hlt hle, le_refl _, rfl, hep, hid⟩
        · show pyStrip (text.drop last.start_char) =
            pyStrip (pySlice text last.start_char text.length)
          unfold pySlice
          rw [htake]
        · show pyStrip (text.drop last.start_char) ≠ []
          have hex : ∃ x ∈ (text.drop last.start_char).take (last.end_char - last.start_char),
              pyIsSpace x = false := by
            by_contra hall
            push_neg at hall
            apply hne
            rw [ht]
            exact (pyStrip_eq_nil_iff _).mpr fun x hx => by
              have := hall x hx
              revert this
              cases pyIsSpace x <;> simp
          obtain ⟨x, hx, hxw⟩ := hex
          exact pyStrip_ne_nil _ x (List.take_subset _ _ hx) hxw
      constructor
      · intro c hc
        rcases List.mem_append.mp hc with hcl | hcr
        · exact h1 c (List.mem_append_left _ hcl)
        · rw [List.mem_singleton.mp hcr]
          exact hgood_ext
      · rw [List.map_append, List.map_append]
        rfl

/-- The tail merge preserves the loop invariant (well-formedness plus the
ordinal sequence being `0 .. n-1`). -/
theorem mergeRemainder_inv (text : List Char) (eid : String) (pos : Nat)
    (chunks : List ChunkRecord)
    (h1 : ∀ c ∈ chunks, GoodChunk text eid c)
    (h2 : (chunks.map fun c => c.ordinal) = List.range chunks.length) :
    (∀ c ∈ mergeRemainder text pos chunks, GoodChunk text eid c) ∧
    ((mergeRemainder text pos chunks).map fun c => c.ordinal) =
      List.range (mergeRemainder text pos chunks).length := by
  obtain ⟨hg, hm⟩ := mergeRemainder_good text eid pos chunks h1
  have hlen : (mergeRemainder text pos chunks).length = chunks.length := by
    have := congrArg List.length hm
    simpa using this
  exact ⟨hg, by rw [hm, h2, hlen]⟩

/-- Loop invariant of `chunk_text`: every accumulated chunk is well-formed and
the accumulated ordinals are exactly `0 .. n-1` in order, with the ordinal
counter equal to the number of chunks so far. -/
theorem chunkLoop_invariant (text : List Char) (eid : String) (cs ov : Nat) :
    ∀ fuel pos ordinal chunks,
    (∀ c ∈ chunks, GoodChunk text eid c) →
    ((chunks.map fun c => c.ordinal) = List.range chunks.length) →
    ordinal = chunks.length →
    (∀ c ∈ chunkLoop text eid cs ov fuel pos ordinal chunks, GoodChunk text eid c) ∧
    ((chunkLoop text eid cs ov fuel pos ordinal chunks).map fun c => c.ordinal) =
      List.range (chunkLoop text eid cs ov fuel pos ordinal chunks).length := by
  intro fuel
  induction fuel with
  | zero =>
    intro pos ordinal chunks h1 h2 _
    exact ⟨h1, h2⟩
  | succ f ih =>
    intro pos ordinal chunks h1 h2 h3
    by_cases hpos : pos < text.length
    · simp only [chunkLoop]
      rw [if_pos hpos]
      set end0 := min (pos + cs) text.length with hend0
      set endc := (if end0 < text.length then
        (findBreak text (pos + 4 * cs / 5) end0).getD end0 else end0) with hendc
      set seg := pyStrip ((text.drop pos).take (endc - pos)) with hsegdef
      set np := nextPos cs ov pos endc with hnp
      have hendc_le : endc ≤ text.length := by
        rw [hendc]
        split
        · rcases hfb : findBreak text (pos + 4 * cs / 5) end0 with _ | b
          · simp only [hfb, Option.getD_none]
            rw [hend0]
            exact min_le_right _ _
          · simp only [hfb, Option.getD_some]
            exact le_of_lt (findBreak_lt_len text _ end0 b hfb)
        · rw [hend0]
          exact min_le_right _ _
      by_cases hsegE : seg.isEmpty
      · rw [if_pos hsegE, if_pos hsegE]
        split
        · exact mergeRemainder_inv text eid np chunks h1 h2
        · exact ih np ordinal chunks h1 h2 h3
      · rw [if_neg hsegE, if_neg hsegE]
        have hsegne : seg ≠ [] := by
          intro hn
          rw [hn] at hsegE
          exact hsegE rfl
        have hgood_emit : GoodChunk text eid (emitChunk eid ordinal pos endc seg) :=
          emitChunk_good text eid ordinal pos endc hendc_le hsegne
        have h1b : ∀ c ∈ chunks ++ [emitChunk eid ordinal pos endc seg],
            GoodChunk text eid c := by
          intro c hc
          rcases List.mem_append.mp hc with hcl | hcr
          · exact h1 c hcl
          · rw [List.mem_singleton.mp hcr]
            exact hgood_emit
        have h2b : ((chunks ++ [emitChunk eid ordinal pos endc seg]).map fun c => c.ordinal) =
            List.range (chunks ++ [emitChunk eid ordinal pos endc seg]).length := by
          rw [List.map_append, h2, List.length_append]
          simp [List.range_succ, h3, emitChunk]
        have h3b : ordinal + 1 = (chunks ++ [emitChunk eid ordinal pos endc seg]).length := by
          simp [h3]
        split
        · exact mergeRemainder_inv text eid np _ h1b h2b
        · exact ih np (ordinal + 1) _ h1b h2b h3b
    · rw [chunkLoop_exit text eid cs ov (f + 1) pos ordinal chunks (by omega)]
      exact ⟨h1, h2⟩

/-- The tail merge never changes the start offset of the first chunk, and keeps
a non-empty chunk list non-empty. -/
theorem mergeRemainder_head_start (text : List Char) (pos : Nat) (chunks : List ChunkRecord) :
    ((mergeRemainder text pos chunks).head?.map fun c => c.start_char) =
      (chunks.head?.map fun c => c.start_char) ∧
    (chunks ≠ [] → mergeRemainder text pos chunks ≠ []) := by
  unfold mergeRemainder
  split
  · exact ⟨rfl, fun h => h⟩
  · cases hlast : chunks.getLast? with
    | none => exact ⟨rfl, fun h => h⟩
    | some last =>
      obtain ⟨ys, hys⟩ := List.getLast?_eq_some_iff.mp hlast
      subst hys
      rw [List.dropLast_concat]
      constructor
      · cases ys with
        | nil => rfl
        | cons y t => rfl
      · intro _
        simp

/-- The chunk loop never changes the start offset of the first accumulated
chunk, and keeps a non-empty accumulator non-empty. -/
theorem chunkLoop_head_start (text : List Char) (eid : String) (cs ov : Nat) :
    ∀ fuel pos ordinal chunks, chunks ≠ [] →
    (((chunkLoop text eid cs ov fuel pos ordinal chunks).head?.map fun c => c.start_char) =
      (chunks.head?.map fun c => c.start_char)) ∧
    chunkLoop text eid cs ov fuel pos ordinal chunks ≠ [] := by
  intro fuel
  induction fuel with
  | zero =>
    intro pos ordinal chunks h
    exact ⟨rfl, h⟩
  | succ f ih =>
    intro pos ordinal chunks h
    by_cases hpos : pos < text.length
    · simp only [chunkLoop]
      rw [if_pos hpos]
      set end0 := min (pos + cs) text.length with hend0
      set endc := (if end0 < text.length then
        (findBreak text (pos + 4 * cs / 5) end0).getD end0 else end0) with hendc
      set seg := pyStrip ((text.drop pos).take (endc - pos)) with hsegdef
      set np := nextPos cs ov pos endc with hnp
      have happend : ((chunks ++ [emitChunk eid ordinal pos endc seg]).head?.map
          fun c => c.start_char) = (chunks.head?.map fun c => c.start_char) ∧
          chunks ++ [emitChunk eid ordinal pos endc seg] ≠ [] := by
        cases chunks with
        | nil => exact absurd rfl h
        | cons a t => exact ⟨rfl, by simp⟩
      by_cases hsegE : seg.isEmpty
      · rw [if_pos hsegE, if_pos hsegE]
        split
        · obtain ⟨hm, hne⟩ := mergeRemainder_head_start text np chunks
          exact ⟨hm, hne h⟩
        · exact ih np ordinal chunks h
      · rw [if_neg hsegE, if_neg hsegE]
        split
        · obtain ⟨hm, hmne⟩ := mergeRemainder_head_start text np
            (chunks ++ [emitChunk eid ordinal pos endc seg])
          exact ⟨hm.trans happend.1, hmne happend.2⟩
        · obtain ⟨hrec, hrne⟩ := ih np (ordinal + 1)
            (chunks ++ [emitChunk eid ordinal pos endc seg]) happend.2
          exact ⟨hrec.trans happend.1, hrne⟩
    · rw [chunkLoop_exit text eid cs ov (f + 1) pos ordinal chunks (by omega)]
      exact ⟨rfl, h⟩

/-- Dropping a proper prefix does not change a list's last element. -/
theorem getLast?_drop_of_lt (l : List Char) (n : Nat) (h : n < l.length) :
    (l.drop n).getLast? = l.getLast? := by
  conv_rhs => rw [← List.take_append_drop n l]
  rw [List.getLast?_append]
  have hne : l.drop n ≠ [] := by
    intro hnil
    have := congrArg List.length hnil
    simp at this
    omega
  cases hld : (l.drop n).getLast? with
  | none =>
    rw [List.getLast?_eq_none_iff] at hld
    exact absurd hld hne
  | some c => simp

/-- Taking at least one element does not change a list's head. -/
theorem head?_take_of_pos (l : List Char) (n : Nat) (h : 1 ≤ n) :
    (l.take n).head? = l.head? := by
  cases l with
  | nil => simp
  | cons a t =>
    cases n with
    | zero => omega
    | succ m => rfl

/-- When the remainder strips to something non-empty and a chunk exists, the
tail merge makes the final chunk end at the text length. -/
theorem mergeRemainder_last_end (text : List Char) (pos : Nat) (chunks : List ChunkRecord)
    (hrem : ¬(pyStrip (text.drop pos)).isEmpty = true) (hch : chunks ≠ []) :
    mergeRemainder text pos chunks ≠ [] ∧
    ((mergeRemainder text pos chunks).getLast?.map fun c => c.end_char) = some text.length := by
  unfold mergeRemainder
  rw [if_neg hrem]
  cases hlast : chunks.getLast? with
  | none => exact absurd (List.getLast?_eq_none_iff.mp hlast) hch
  | some last =>
    obtain ⟨ys, hys⟩ := List.getLast?_eq_some_iff.mp hlast
    subst hys
    rw [List.dropLast_concat]
    constructor
    · simp
    · rw [List.getLast?_append]
      rfl

/-- Main loop lemma for C1: with `chunk_size ≥ 1`, `2·overlap ≤ chunk_size`, a
text whose last character is non-whitespace, and either a non-empty accumulator
or a start at position 0 with a non-whitespace first character, the loop ends
with a non-empty chunk list whose final chunk ends at the text length; when the
accumulator started empty the first chunk starts at the entry position. -/
theorem chunkLoop_last_end (text : List Char) (eid : String) (cs ov : Nat)
    (hcs : 1 ≤ cs) (hov : 2 * ov ≤ cs)
    (clast : Char) (hclast : text.getLast? = some clast) (hclastw : pyIsSpace clast = false) :
    ∀ fuel pos ordinal chunks,
    pos < text.length → text.length ≤ pos + fuel →
    (chunks ≠ [] ∨ (pos = 0 ∧ ∃ c, text.head? = some c ∧ pyIsSpace c = false)) →
    chunkLoop text eid cs ov fuel pos ordinal chunks ≠ [] ∧
    ((chunkLoop text eid cs ov fuel pos ordinal chunks).getLast?.map fun c => c.end_char) =
      some text.length ∧
    (chunks = [] →
      ((chunkLoop text eid cs ov fuel pos ordinal chunks).head?.map fun c => c.start_char) =
        some pos) := by
  intro fuel
  induction fuel with
  | zero =>
    intro pos ordinal chunks hpos hfuel _
    exact absurd hfuel (by omega)
  | succ f ih =>
    intro pos ordinal chunks hpos hfuel hinit
    simp only [chunkLoop]
    rw [if_pos hpos]
    set end0 := min (pos + cs) text.length with hend0
    set endc := (if end0 < text.length then
      (findBreak text (pos + 4 * cs / 5) end0).getD end0 else end0) with hendc
    set seg := pyStrip ((text.drop pos).take (endc - pos)) with hsegdef
    set np := nextPos cs ov pos endc with hnp
    have hendc_le : endc ≤ text.length := by
      rw [hendc]
      split
      · rcases hfb : findBreak text (pos + 4 * cs / 5) end0 with _ | b
        · simp only [hfb, Option.getD_none]
          rw [hend0]
          exact min_le_right _ _
        · simp only [hfb, Option.getD_some]
          exact le_of_lt (findBreak_lt_len text _ end0 b hfb)
      · rw [hend0]
        exact min_le_right _ _
    have hinit2 : chunks ≠ [] ∨ (pos = 0 ∧ seg ≠ []) := by
      rcases hinit with hch | ⟨hpos0, c0, hc0, hc0w⟩
      · exact Or.inl hch
      · right
        refine ⟨hpos0, ?_⟩
        subst hpos0
        have hendc1 : 1 ≤ endc := by
          rw [hendc]
          split
          · rcases hfb : findBreak text (0 + 4 * cs / 5) end0 with _ | b
            · simp only [hfb, Option.getD_none]
              rw [hend0]
              omega
            · have := findBreak_gt text _ end0 b hfb
              simp only [hfb, Option.getD_some]
              omega
          · rw [hend0]
            omega
        rw [hsegdef]
        have hc0mem : c0 ∈ (text.drop 0).take (endc - 0) := by
          simp only [List.drop_zero, Nat.sub_zero]
          have hh : (text.take endc).head? = text.head? := head?_take_of_pos text endc hendc1
          rw [hc0] at hh
          obtain ⟨ys, hys⟩ := List.head?_eq_some_iff.mp hh
          rw [hys]
          simp
        exact pyStrip_ne_nil _ c0 hc0mem hc0w
    have hch2 : (if seg.isEmpty then chunks
        else chunks ++ [emitChunk eid ordinal pos endc seg]) ≠ [] := by
      rcases hinit2 with hch | ⟨_, hsegne⟩
      · split
        · exact hch
        · simp
      · rw [if_neg (fun hE => hsegne (List.isEmpty_iff.mp hE))]
        simp
    have hhead2 : chunks = [] →
        ((if seg.isEmpty then chunks
          else chunks ++ [emitChunk eid ordinal pos endc seg]).head?.map
            fun c => c.start_char) = some pos := by
      intro hempty
      rcases hinit2 with hch | ⟨_, hsegne⟩
      · exact absurd hempty hch
      · rw [if_neg (fun hE => hsegne (List.isEmpty_iff.mp hE)), hempty]
        rfl
    have hprog : pos < np := by
      rw [hnp]
      unfold nextPos
      split <;> omega
    split
    · rename_i hm
      have hremne : ¬(pyStrip (text.drop np)).isEmpty = true := by
        have hlast_drop : (text.drop np).getLast? = some clast := by
          rw [getLast?_drop_of_lt text np hm.1, hclast]
        obtain ⟨ys, hys⟩ := List.getLast?_eq_some_iff.mp hlast_drop
        have := pyStrip_ne_nil (text.drop np) clast (by rw [hys]; simp) hclastw
        exact fun hE => this (List.isEmpty_iff.mp hE)
      obtain ⟨hmne, hmend⟩ := mergeRemainder_last_end text np _ hremne hch2
      refine ⟨hmne, hmend, ?_⟩
      intro hempty
      exact (mergeRemainder_head_start text np _).1.trans (hhead2 hempty)
    · rename_i hmneg
      by_cases hnl : np < text.length
      · obtain ⟨hrne, hrend, _⟩ := ih np (if seg.isEmpty then ordinal else ordinal + 1)
          (if seg.isEmpty then chunks else chunks ++ [emitChunk eid ordinal pos endc seg])
          hnl (by omega) (Or.inl hch2)
        refine ⟨hrne, hrend, ?_⟩
        intro hempty
        exact (chunkLoop_head_start text eid cs ov f np _ _ hch2).1.trans (hhead2 hempty)
      · push_neg at hnl
        rw [chunkLoop_exit text eid cs ov f np _ _ hnl]
        have hendc_len : endc = text.length := by
          rw [hnp] at hnl
          unfold nextPos at hnl
          by_cases hfall : endc - ov ≤ pos
          · rw [if_pos hfall] at hnl
            have hendc_cases : endc = text.length ∨
                (endc = pos + cs ∧ pos + cs < text.length) ∨
                (∃ b, endc = b ∧ pos + 4 * cs / 5 < b ∧ b < text.length) := by
              rw [hendc]
              split
              · rcases hfb : findBreak text (pos + 4 * cs / 5) end0 with _ | b
                · simp only [hfb, Option.getD_none]
                  rename_i hcond
                  rw [hend0] at hcond ⊢
                  right; left
                  omega
                · simp only [hfb, Option.getD_some]
                  right; right
                  exact ⟨b, rfl, findBreak_gt text _ end0 b hfb,
                    findBreak_lt_len text _ end0 b hfb⟩
              · rename_i hcond
                rw [hend0] at hcond ⊢
                left
                omega
            rcases hendc_cases with hc | ⟨hc1, hc2⟩ | ⟨b, hb1, hb2, hb3⟩
            · exact hc
            · omega
            · omega
          · rw [if_neg hfall] at hnl
            omega
        have hsegne2 : seg ≠ [] := by
          rw [hsegdef, hendc_len]
          have htake : (text.drop pos).take (text.length - pos) = text.drop pos := by
            rw [← List.length_drop]
            exact List.take_length _
          rw [htake]
          have hld : (text.drop pos).getLast? = some clast := by
            rw [getLast?_drop_of_lt text pos hpos, hclast]
          obtain ⟨ys, hys⟩ := List.getLast?_eq_some_iff.mp hld
          exact pyStrip_ne_nil _ clast (by rw [hys]; simp) hclastw
        rw [if_neg (fun hE => hsegne2 (List.isEmpty_iff.mp hE))]
        refine ⟨by simp, ?_, ?_⟩
        · rw [List.getLast?_append]
          show some ((emitChunk eid ordinal pos endc seg).end_char) = some text.length
          rw [show (emitChunk eid ordinal pos endc seg).end_char = endc from rfl, hendc_len]
        · intro hempty
          rw [hempty]
          rfl

/-- C10: every chunk emitted by `chunk_text` stores exactly the stripped slice
`text[start_char:end_char]` as its non-empty text, has
`0 ≤ start_char < end_char ≤ len(text)`, a token estimate of
`max(1, len(text) // 4)`, the episode id, and the id
`{episode_id}_{ordinal:03d}`; across the output the ordinals are exactly
`0, 1, ..., n-1` in order (see `GoodChunk` for the per-chunk conjunction). -/
theorem chunk_text_wellformed (text : List Char) (eid : String) (cs : Nat) (ratio : ℚ) :
    (∀ c ∈ chunk_text text eid cs ratio, GoodChunk text eid c) ∧
    ((chunk_text text eid cs ratio).map fun c => c.ordinal) =
      List.range (chunk_text text eid cs ratio).length := by
  unfold chunk_text
  split
  · exact ⟨by intro c hc; simp at hc, rfl⟩
  · exact chunkLoop_invariant text eid cs (overlapOf cs ratio) (text.length + 1) 0 0 []
      (by intro c hc; simp at hc) rfl rfl

/-- Counterexample to C1: for a non-whitespace-only text with leading and
trailing whitespace runs longer than a window (`"    abcd    "`, 12 chars,
`chunk_size = 4`, `overlap_ratio = 0`), the whitespace-only windows are
dropped, so the single returned chunk has `start_char = 4 ≠ 0` and
`end_char = 8 ≠ len(text) = 12`. -/
theorem chunk_text_covers_counterexample :
    pyStrip "    abcd    ".toList ≠ [] ∧
    "    abcd    ".toList.length = 12 ∧
    ((chunk_text "    abcd    ".toList "ep" 4 0).head?.map fun c => c.start_char) = some 4 ∧
    ((chunk_text "    abcd    ".toList "ep" 4 0).getLast?.map fun c => c.end_char) = some 8 := by
  have h : overlapOf 4 0 = 0 := by norm_num [overlapOf]
  refine ⟨by decide, by decide, ?_, ?_⟩ <;> simp only [chunk_text, h] <;> decide

/-- C1 (amended): for every text that is non-empty and equal to its own strip
(no leading or trailing whitespace), with `chunk_size ≥ 1` and
`overlap_ratio ∈ [0, 0.5]`, the chunk sequence returned by `chunk_text` is
non-empty, its first chunk has `start_char = 0`, and its last chunk has
`end_char = len(text)` — the ordinal-ordered chunks cover the full source text
(with overlap).  The restriction to stripped text is forced by the
counterexample: windows that strip to whitespace are dropped, so leading or
trailing whitespace runs longer than a window break the claim as stated. -/
theorem chunk_text_covers (text : List Char) (eid : String) (cs : Nat) (ratio : ℚ)
    (hstrip : pyStrip text = text) (hne : text ≠ [])
    (hcs : 1 ≤ cs) (h0 : 0 ≤ ratio) (h2 : ratio ≤ 1 / 2) :
    chunk_text text eid cs ratio ≠ [] ∧
    ((chunk_text text eid cs ratio).head?.map fun c => c.start_char) = some 0 ∧
    ((chunk_text text eid cs ratio).getLast?.map fun c => c.end_char) =
      some text.length := by
  have hov := two_mul_overlapOf_le cs ratio h0 h2
  obtain ⟨cl, hcl, hclw⟩ := pyStrip_self_last text hstrip hne
  obtain ⟨ch, hch, hchw⟩ := pyStrip_self_head text hstrip hne
  have hlen : 0 < text.length := List.length_pos.mpr hne
  unfold chunk_text
  rw [if_neg (fun hE => hne (by rw [← hstrip]; exact List.isEmpty_iff.mp hE))]
  obtain ⟨hr1, hr2, hr3⟩ := chunkLoop_last_end text eid cs (overlapOf cs ratio) hcs hov
    cl hcl hclw (text.length + 1) 0 0 [] hlen (by omega) (Or.inr ⟨rfl, ch, hch, hchw⟩)
  exact ⟨hr1, hr3 rfl, hr2⟩

/-- Witness for C1 (amended) on the two-character stripped text `"ab"`. -/
theorem chunk_text_covers_witness :
    chunk_text "ab".toList "ep" 1 0 ≠ [] ∧
    ((chunk_text "ab".toList "ep" 1 0).head?.map fun c => c.start_char) = some 0 ∧
    ((chunk_text "ab".toList "ep" 1 0).getLast?.map fun c => c.end_char) =
      some "ab".toList.length :=
  chunk_text_covers "ab".toList "ep" 1 0 (by decide) (by decide) (by norm_num)
    (by norm_num) (by norm_num)

/-- Counterexample to C2: `"abcd"` (4 chars, non-whitespace) with
`chunk_size = 6 > 4` and `overlap_ratio = 0.5` (overlap 3) produces **two**
chunks, not one: after emitting the whole text the scan position moves back to
`end - overlap = 1 < 4`, and the second window `"bcd"` is emitted as well. -/
theorem chunk_text_short_counterexample :
    "abcd".toList.length < 6 ∧
    pyStrip "abcd".toList ≠ [] ∧
    (chunk_text "abcd".toList "ep" 6 (1 / 2)).length = 2 := by
  have h : overlapOf 6 (1 / 2) = 3 := by norm_num [overlapOf]; rfl
  refine ⟨by decide, by decide, ?_⟩
  simp only [chunk_text, h]
  decide

/-- C2 (amended): for a non-whitespace-only text with `len(text) < chunk_size`
and `overlap_ratio ∈ [0, 0.5]`, `chunk_text` returns exactly one chunk — the
whole input trimmed of surrounding whitespace, spanning `[0, len(text))` —
provided additionally that `overlap_chars = 0`, or `len(text) ≤ overlap_chars`,
or the last `overlap_chars` characters strip to whitespace; otherwise the scan
re-enters the text at `len - overlap_chars` and a second chunk covering that
tail window is also emitted (see the counterexample). -/
theorem chunk_text_short_single (text : List Char) (eid : String) (cs : Nat) (ratio : ℚ)
    (hne : pyStrip text ≠ []) (hshort : text.length < cs)
    (h0 : 0 ≤ ratio) (h2 : ratio ≤ 1 / 2)
    (hcond : overlapOf cs ratio = 0 ∨ text.length ≤ overlapOf cs ratio ∨
      pyStrip (text.drop (text.length - overlapOf cs ratio)) = []) :
    chunk_text text eid cs ratio = [emitChunk eid 0 0 text.length (pyStrip text)] := by
  have hov := two_mul_overlapOf_le cs ratio h0 h2
  have htne : text ≠ [] := by
    intro h
    apply hne
    rw [h]
    rfl
  have hlen1 : 1 ≤ text.length := List.length_pos.mpr htne
  unfold chunk_text
  rw [if_neg (fun hE => hne (List.isEmpty_iff.mp hE))]
  set ov := overlapOf cs ratio with hovdef
  simp only [chunkLoop]
  rw [if_pos (by omega : 0 < text.length)]
  set end0 := min (0 + cs) text.length with hend0
  have hend0v : end0 = text.length := by
    rw [hend0]
    omega
  set endc := (if end0 < text.length then
    (findBreak text (0 + 4 * cs / 5) end0).getD end0 else end0) with hendc
  have hendcv : endc = text.length := by
    rw [hendc, hend0v]
    rw [if_neg (lt_irrefl _)]
  set seg := pyStrip ((text.drop 0).take (endc - 0)) with hsegdef
  have hsegv : seg = pyStrip text := by
    rw [hsegdef, hendcv]
    simp only [List.drop_zero, Nat.sub_zero]
    rw [List.take_length]
  have hsegne : ¬seg.isEmpty = true := by
    rw [hsegv]
    exact fun hE => hne (List.isEmpty_iff.mp hE)
  rw [if_neg hsegne, if_neg hsegne]
  set np := nextPos cs ov 0 endc with hnp
  simp only [List.nil_append]
  rw [hsegv, hendcv]
  by_cases heasy : ov = 0 ∨ text.length ≤ ov
  · have hnp_ge : text.length ≤ np := by
      rw [hnp, hendcv]
      unfold nextPos
      split <;> omega
    rw [if_neg (by omega : ¬(np < text.length ∧ text.length - np < ov))]
    exact chunkLoop_exit text eid cs ov text.length np (0 + 1) _ hnp_ge
  · push_neg at heasy
    obtain ⟨hov1, hovlen⟩ := heasy
    have htail : pyStrip (text.drop (text.length - ov)) = [] := by
      rcases hcond with h | h | h
      · exact absurd h hov1
      · exact absurd h (by omega)
      · exact h
    have hnpv : np = text.length - ov := by
      rw [hnp, hendcv]
      unfold nextPos
      split <;> omega
    rw [if_neg (by omega : ¬(np < text.length ∧ text.length - np < ov))]
    obtain ⟨m, hm⟩ : ∃ m, text.length = m + 1 := ⟨text.length - 1, by omega⟩
    rw [hm]
    simp only [chunkLoop]
    rw [if_pos (by omega : np < text.length)]
    set end0b := min (np + cs) text.length with hend0b
    have hend0bv : end0b = text.length := by
      rw [hend0b]
      omega
    set endcb := (if end0b < text.length then
      (findBreak text (np + 4 * cs / 5) end0b).getD end0b else end0b) with hendcb
    have hendcbv : endcb = text.length := by
      rw [hendcb, hend0bv]
      rw [if_neg (lt_irrefl _)]
    set segb := pyStrip ((text.drop np).take (endcb - np)) with hsegbdef
    have hsegbv : segb = [] := by
      rw [hsegbdef, hendcbv]
      have htk : (text.drop np).take (text.length - np) = text.drop np := by
        rw [← List.length_drop]
        exact List.take_length _
      rw [htk, hnpv]
      exact htail
    have hsegbE : segb.isEmpty = true := by
      rw [hsegbv]
      rfl
    rw [if_pos hsegbE, if_pos hsegbE]
    set npb := nextPos cs ov np endcb with hnpb
    have hnpb_ge : text.length ≤ npb := by
      rw [hnpb, hendcbv]
      unfold nextPos
      split <;> omega
    rw [if_neg (by omega : ¬(npb < text.length ∧ text.length - npb < ov))]
    exact chunkLoop_exit text eid cs ov m npb (0 + 1) _ (by omega)

/-- Witness for C2 (amended): `"ab"` with `chunk_size = 3` and ratio `0`. -/
theorem chunk_text_short_single_witness :
    chunk_text "ab".toList "ep" 3 0 =
      [emitChunk "ep" 0 0 "ab".toList.length (pyStrip "ab".toList)] :=
  chunk_text_short_single "ab".toList "ep" 3 0 (by decide) (by decide) (by norm_num)
    (by norm_num) (Or.inl (by norm_num [overlapOf]))

/-- Both ranking loops of `retrieve_chunks` keep the accumulator free of
duplicates. -/
theorem dedupeAppendUpTo_nodup (k : Nat) :
    ∀ (l acc : List String), acc.Nodup → (dedupeAppendUpTo k acc l).Nodup := by
  intro l
  induction l with
  | nil =>
    intro acc h
    simpa [dedupeAppendUpTo] using h
  | cons c cs ih =>
    intro acc h
    simp only [dedupeAppendUpTo]
    by_cases hc : c ∈ acc
    · rw [if_pos hc]
      split
      · exact h
      · exact ih acc h
    · rw [if_neg hc]
      have h2 : (acc ++ [c]).Nodup := by
        rw [List.nodup_append]
        exact ⟨h, List.nodup_singleton c, fun a ha hb => hc ((List.mem_singleton.mp hb) ▸ ha)⟩
      split
      · exact h2
      · exact ih (acc ++ [c]) h2

/-- Every id in the ranking accumulator comes from the initial accumulator or
from the candidate list. -/
theorem dedupeAppendUpTo_subset (k : Nat) :
    ∀ (l acc : List String), dedupeAppendUpTo k acc l ⊆ acc ++ l := by
  intro l
  induction l with
  | nil =>
    intro acc x hx
    simp only [dedupeAppendUpTo] at hx
    simp [hx]
  | cons c cs ih =>
    intro acc x hx
    simp only [dedupeAppendUpTo] at hx
    simp only [List.mem_append, List.mem_cons]
    by_cases hc : c ∈ acc
    · rw [if_pos hc] at hx
      revert hx
      split
      · intro hx
        exact Or.inl hx
      · intro hx
        have := ih acc hx
        simp only [List.mem_append] at this
        tauto
    · rw [if_neg hc] at hx
      revert hx
      split
      · intro hx
        simp only [List.mem_append, List.mem_singleton] at hx
        tauto
      · intro hx
        have := ih (acc ++ [c]) hx
        simp only [List.mem_append, List.mem_singleton] at this
        tauto

/-- Partition of a list's length by a membership filter. -/
theorem length_filter_mem_add_not_mem (A : List String) :
    ∀ pool : List String,
    (pool.filter fun c => c ∈ A).length + (pool.filter fun c => c ∉ A).length = pool.length := by
  intro pool
  induction pool with
  | nil => rfl
  | cons c cs ih =>
    simp only [List.filter_cons, decide_not] at ih ⊢
    by_cases hc : c ∈ A
    · simp [hc]
      omega
    · simp [hc]
      omega

/-- The fallback loop of `retrieve_chunks` reaches exactly `top_k` ids when the
accumulator is still short of `top_k` and the candidate list has enough fresh
(duplicate-free, not yet accumulated) ids. -/
theorem dedupeAppendUpTo_fills (k : Nat) :
    ∀ (l acc : List String), acc.Nodup → l.Nodup → acc.length < k →
    k ≤ acc.length + (l.filter fun c => c ∉ acc).length →
    (dedupeAppendUpTo k acc l).length = k := by
  intro l
  induction l with
  | nil =>
    intro acc _ _ hlt hle
    simp only [List.filter_nil, List.length_nil] at hle
    simp only [dedupeAppendUpTo]
    omega
  | cons c cs ih =>
    intro acc hacc hl hlt hle
    rcases List.nodup_cons.mp hl with ⟨hccs, hcs⟩
    simp only [dedupeAppendUpTo]
    by_cases hc : c ∈ acc
    · rw [if_pos hc]
      rw [if_neg (by omega)]
      apply ih acc hacc hcs hlt
      have heq : ((c :: cs).filter fun x => x ∉ acc) = cs.filter fun x => x ∉ acc := by
        simp [List.filter_cons, hc]
      rw [heq] at hle
      exact hle
    · rw [if_neg hc]
      have hlen2 : (acc ++ [c]).length = acc.length + 1 := by simp
      have hnodup2 : (acc ++ [c]).Nodup := by
        rw [List.nodup_append]
        exact ⟨hacc, List.nodup_singleton c, fun a ha hb => hc ((List.mem_singleton.mp hb) ▸ ha)⟩
      by_cases hk : k ≤ (acc ++ [c]).length
      · rw [if_pos hk, hlen2]
        omega
      · rw [if_neg hk]
        apply ih (acc ++ [c]) hnodup2 hcs (by omega)
        have hfe : (cs.filter fun x => x ∉ acc ++ [c]) = cs.filter fun x => x ∉ acc := by
          apply List.filter_congr
          intro x hx
          have hxc : x ≠ c := fun h => hccs (h ▸ hx)
          simp [List.mem_append, hxc]
        have hfc : ((c :: cs).filter fun x => x ∉ acc) = c :: (cs.filter fun x => x ∉ acc) := by
          simp [List.filter_cons, hc]
        rw [hfc] at hle
        rw [hfe, hlen2]
        simp only [List.length_cons] at hle
        omega

/-- Inserting into the sorted-by-ordinal list is a permutation of consing. -/
theorem insertByOrdinal_perm (c : ChunkRow) :
    ∀ l, List.Perm (insertByOrdinal c l) (c :: l) := by
  intro l
  induction l with
  | nil => exact List.Perm.refl _
  | cons d ds ih =>
    simp only [insertByOrdinal]
    split
    · exact List.Perm.refl _
    · exact (ih.cons d).trans (List.Perm.swap c d ds)

/-- The `ORDER BY ordinal` query model returns a permutation of its input. -/
theorem sortByOrdinal_perm : ∀ l, List.Perm (sortByOrdinal l) l := by
  intro l
  induction l with
  | nil => exact List.Perm.refl _
  | cons c cs ih =>
    exact (insertByOrdinal_perm c (sortByOrdinal cs)).trans (ih.cons c)

/-- When every ranked id resolves through the id→row map, the final loop of
`retrieve_chunks` returns one record per ranked id, in order. -/
theorem buildResults_map (db : List ChunkRow) :
    ∀ (ranked : List String) (rank0 : Nat),
    (∀ cid ∈ ranked, ∃ c ∈ db, c.chunk_id = cid) →
    ((buildResults db ranked rank0).map fun r => r.chunk_id) = ranked := by
  intro ranked
  induction ranked with
  | nil =>
    intro _ _
    rfl
  | cons cid rest ih =>
    intro rank0 hsync
    simp only [buildResults]
    have hfind : (db.find? fun c => c.chunk_id = cid).isSome := by
      rw [List.find?_isSome]
      obtain ⟨c, hc, he⟩ := hsync cid (by simp)
      exact ⟨c, hc, by simp [he]⟩
    obtain ⟨c, hc⟩ := Option.isSome_iff_exists.mp hfind
    rw [hc]
    have hcid : c.chunk_id = cid := by
      have := List.find?_some hc
      simpa using this
    rw [List.map_cons, hcid, ih (rank0 + 1) (fun x hx => hsync x (by simp [hx]))]

/-- C5 (amended): the fallback threshold in the source is the integer floor
`top_k // 2`, not the real `top_k / 2`.  When the FTS phase yields fewer than
`top_k // 2` unique ids, the fallback appends the episode's chunks in
ascending ordinal order, skipping ids already present; consequently when the
episode has at least `top_k` chunks (ids unique in the table, FTS ids present
in the table), exactly `top_k` deduplicated records are returned.  For
`top_k = 1` a no-match query returns 0 records, since `1 // 2 = 0` disables
the fallback (see the counterexample). -/
theorem retrieve_chunks_fallback_fills (fts : List String) (db : List ChunkRow)
    (eid : String) (k : Nat)
    (hsync : ∀ cid ∈ fts, ∃ c ∈ db, c.chunk_id = cid)
    (hnodup : (db.map fun c => c.chunk_id).Nodup)
    (hfew : (dedupeAppendUpTo k [] fts).length < k / 2)
    (henough : k ≤ (db.filter fun c => c.episode_id = eid).length) :
    (retrieve_chunks fts db eid k).length = k ∧
    ((retrieve_chunks fts db eid k).map fun c => c.chunk_id).Nodup := by
  have hA_nodup : (dedupeAppendUpTo k [] fts).Nodup :=
    dedupeAppendUpTo_nodup k fts [] List.nodup_nil
  have hAk : (dedupeAppendUpTo k [] fts).length < k :=
    lt_of_lt_of_le hfew (Nat.div_le_self k 2)
  have hperm : List.Perm (sortByOrdinal (db.filter fun c => c.episode_id = eid))
      (db.filter fun c => c.episode_id = eid) := sortByOrdinal_perm _
  have hlensort : (sortByOrdinal (db.filter fun c => c.episode_id = eid)).length =
      (db.filter fun c => c.episode_id = eid).length := hperm.length_eq
  have hpool_len :
      ((((sortByOrdinal (db.filter fun c => c.episode_id = eid)).take k).map
        fun c => c.chunk_id)).length = k := by
    simp only [List.length_map, List.length_take, hlensort]
    omega
  have hmap_nodup : ((db.filter fun c => c.episode_id = eid).map fun c => c.chunk_id).Nodup :=
    ((List.filter_sublist db).map fun c => c.chunk_id).nodup hnodup
  have hsort_nodup : ((sortByOrdinal (db.filter fun c => c.episode_id = eid)).map
      fun c => c.chunk_id).Nodup :=
    ((hperm.map fun c => c.chunk_id).nodup_iff).mpr hmap_nodup
  have hpool_nodup :
      ((((sortByOrdinal (db.filter fun c => c.episode_id = eid)).take k).map
        fun c => c.chunk_id)).Nodup := by
    rw [List.map_take]
    exact (List.take_sublist k _).nodup hsort_nodup
  have hpool_sub : ∀ cid ∈ (((sortByOrdinal (db.filter fun c => c.episode_id = eid)).take k).map
      fun c => c.chunk_id), ∃ c ∈ db, c.chunk_id = cid := by
    intro cid hcid
    obtain ⟨c, hc, rfl⟩ := List.mem_map.mp hcid
    have hc2 : c ∈ sortByOrdinal (db.filter fun c => c.episode_id = eid) :=
      List.take_subset k _ hc
    have hc3 : c ∈ db.filter fun c => c.episode_id = eid := hperm.subset hc2
    exact ⟨c, (List.mem_filter.mp hc3).1, rfl⟩
  have hre : retrieve_chunks fts db eid k =
      buildResults db
        (dedupeAppendUpTo k (dedupeAppendUpTo k [] fts)
          (((sortByOrdinal (db.filter fun c => c.episode_id = eid)).take k).map
            fun c => c.chunk_id)) 0 := by
    simp only [retrieve_chunks]
    rw [if_pos hfew]
  set A := dedupeAppendUpTo k [] fts with hAdef
  set pool := (((sortByOrdinal (db.filter fun c => c.episode_id = eid)).take k).map
    fun c => c.chunk_id) with hpooldef
  have hcount : k ≤ A.length + (pool.filter fun c => c ∉ A).length := by
    have hsplit := length_filter_mem_add_not_mem A pool
    have hin_le : (pool.filter fun c => c ∈ A).length ≤ A.length :=
      ((hpool_nodup.filter _).subperm fun x hx => (List.mem_filter.mp hx).2 |> of_decide_eq_true
        ).length_le
    omega
  have hR_len : (dedupeAppendUpTo k A pool).length = k :=
    dedupeAppendUpTo_fills k pool A hA_nodup hpool_nodup hAk hcount
  have hR_nodup : (dedupeAppendUpTo k A pool).Nodup :=
    dedupeAppendUpTo_nodup k pool A hA_nodup
  have hR_sync : ∀ cid ∈ dedupeAppendUpTo k A pool, ∃ c ∈ db, c.chunk_id = cid := by
    intro cid hcid
    have := dedupeAppendUpTo_subset k pool A hcid
    rcases List.mem_append.mp this with hA | hpool
    · have := dedupeAppendUpTo_subset k fts [] hA
      rcases List.mem_append.mp this with hnil | hfts
      · simp at hnil
      · exact hsync cid hfts
    · exact hpool_sub cid hpool
  have hmap := buildResults_map db (dedupeAppendUpTo k A pool) 0 hR_sync
  constructor
  · rw [hre]
    have hlen : ((buildResults db (dedupeAppendUpTo k A pool) 0).map
        fun r => r.chunk_id).length = (dedupeAppendUpTo k A pool).length := by
      rw [hmap]
    simp only [List.length_map] at hlen
    rw [hlen]
    exact hR_len
  · rw [hre, hmap]
    exact hR_nodup

/-- Witness for C5 (amended): `top_k = 4`, empty FTS result, four chunks. -/
theorem retrieve_chunks_fallback_fills_witness :
    (retrieve_chunks []
      [⟨"e_000", "e", 0, "a"⟩, ⟨"e_001", "e", 1, "b"⟩,
       ⟨"e_002", "e", 2, "c"⟩, ⟨"e_003", "e", 3, "d"⟩] "e" 4).length = 4 :=
  (retrieve_chunks_fallback_fills []
    [⟨"e_000", "e", 0, "a"⟩, ⟨"e_001", "e", 1, "b"⟩,
     ⟨"e_002", "e", 2, "c"⟩, ⟨"e_003", "e", 3, "d"⟩] "e" 4
    (by intro cid h; simp at h) (by decide) (by decide) (by decide)).1

/-- C3: on a NEW episode whose injected `download` stage raises (leaving the
episode state as it found it), `run_episode_pipeline` stops at that stage: the
report holds exactly the one failed `download` entry (no entries for later
stages, exactly one non-skipped stage), the episode's `retry_count` grows by
exactly one for the whole run, and the persisted `error_message` is non-null
and contains both the stage name and the underlying exception text. -/
theorem pipeline_download_failure (impl : StageImpl) (st : EpisodeState) (msg : String)
    (hnew : st.status = .new) (hfail : impl "download" st = .fail msg st) :
    (run_episode_pipeline impl false st).1.stages =
      [⟨"download", "failed", "", some msg⟩] ∧
    ((run_episode_pipeline impl false st).1.stages.filter
        fun r => r.status ≠ "skipped").length = 1 ∧
    (run_episode_pipeline impl false st).2.retry_count = st.retry_count + 1 ∧
    (run_episode_pipeline impl false st).2.error_message =
      some ("Stage 'download' failed: " ++ msg) ∧
    (∃ a b, "Stage 'download' failed: " ++ msg = a ++ "download" ++ b) ∧
    (∃ a b, "Stage 'download' failed: " ++ msg = a ++ msg ++ b) := by
  obtain ⟨stt, em, rc⟩ := st
  have hnew2 : stt = .new := hnew
  subst hnew2
  have hloop : runStagesLoop impl false stages ⟨.new, em, rc⟩ [] =
      ([⟨"download", "failed", "", some msg⟩],
       ⟨.new, some ("Stage 'download' failed: " ++ msg), rc + 1⟩,
       some ("Stage 'download' failed: " ++ msg)) := by
    unfold stages runStagesLoop
    simp [statusOrder, hfail]
  refine ⟨?_, ?_, ?_, ?_, ?_, ?_⟩
  · unfold run_episode_pipeline
    rw [hloop]
  · unfold run_episode_pipeline
    rw [hloop]
    simp
  · unfold run_episode_pipeline
    rw [hloop]
  · unfold run_episode_pipeline
    rw [hloop]
  · exact ⟨"Stage '", "' failed: " ++ msg, by rw [← String.append_assoc]; rfl⟩
  · exact ⟨"Stage 'download' failed: ", "", by rw [String.append_empty]⟩

/-- Witness for C3: a NEW episode, a download stage that raises `boom`. -/
theorem pipeline_download_failure_witness :
    (run_episode_pipeline
        (fun name st => if name = "download" then .fail "boom" st else .ok "" st)
        false ⟨.new, none, 0⟩).1.stages = [⟨"download", "failed", "", some "boom"⟩] ∧
    (run_episode_pipeline
        (fun name st => if name = "download" then .fail "boom" st else .ok "" st)
        false ⟨.new, none, 0⟩).2.retry_count = 0 + 1 :=
  ⟨(pipeline_download_failure
      (fun name st => if name = "download" then .fail "boom" st else .ok "" st)
      ⟨.new, none, 0⟩ "boom" rfl rfl).1,
   (pipeline_download_failure
      (fun name st => if name = "download" then .fail "boom" st else .ok "" st)
      ⟨.new, none, 0⟩ "boom" rfl rfl).2.2.1⟩

end BtcEdu
